import Mathlib

/-!
Shallow embedding of the WebWeaver content-publishing pipeline (`src/main.rs`).

Pure string and list manipulation is translated directly; `std::path::Path`
operations (`file_stem`, `extension`, `file_name`, component iteration) are
modelled on strings using the documented splitting rules of the Rust standard
library; `BTreeMap` is modelled as an association list; filesystem side
effects of the materializer are modelled as an explicit list of operations,
with file reading supplied as a total oracle function.
-/

namespace WebWeaver

/-- Models Rust `char::is_alphanumeric`. The Rust predicate consults the
Unicode `Alphabetic` and `Number` tables; this model is faithful on the
ASCII range (the Unicode tables beyond ASCII are not modelled). -/
def is_alphanumeric (c : Char) : Bool := c.isAlphanum

/-- Models Rust `char::to_ascii_lowercase`: ASCII uppercase letters are
shifted into lowercase, every other character is unchanged.  Lean's
`Char.toLower` implements exactly this ASCII-only mapping. -/
def to_ascii_lowercase (c : Char) : Char := c.toLower

/-- `friendly_filename` from `src/main.rs` lines 253-265: iterate the
characters, keep alphanumeric characters lowercased, map a space to `_`,
drop everything else. -/
def friendly_filename (name : String) : String :=
  ⟨name.data.foldl
    (fun result c =>
      if is_alphanumeric c then result ++ [to_ascii_lowercase c]
      else if c = ' ' then result ++ ['_']
      else result)
    []⟩

/-- The per-character mapping that §4.2 of the spec describes for the
Friendly-Name Normalizer, written from the spec words: alphanumerics are
lowercased and kept, a space becomes `_`, everything else is dropped with
no substitute.  Used to compare the loop in `friendly_filename` against
the specified mapping. -/
def slug_char_spec (c : Char) : Option Char :=
  if is_alphanumeric c then some (to_ascii_lowercase c)
  else if c = ' ' then some '_'
  else none

/-! ### List-of-characters utilities modelling `str` splitting -/

/-- Split a character list at the first occurrence of `sep`; `none` when
`sep` does not occur.  `some (a, b)` means the input is `a ++ sep :: b`
with `sep ∉ a`.  Models the successful case of Rust `str::splitn(2, sep)`. -/
def splitFirst (sep : Char) : List Char → Option (List Char × List Char)
  | [] => none
  | c :: rest =>
    if c = sep then some ([], rest)
    else
      match splitFirst sep rest with
      | none => none
      | some (a, b) => some (c :: a, b)

/-- Auxiliary accumulator form of `splitAll`. -/
def splitAllAux (sep : Char) : List Char → List Char → List (List Char)
  | [], cur => [cur.reverse]
  | c :: rest, cur =>
    if c = sep then cur.reverse :: splitAllAux sep rest []
    else splitAllAux sep rest (c :: cur)

/-- Models Rust `str::split(sep)`: the (always non-empty) list of segments
between occurrences of `sep`; the empty string yields `[[]]`. -/
def splitAll (sep : Char) (l : List Char) : List (List Char) :=
  splitAllAux sep l []

/-- Join segments with a separator character (inverse of `splitAll`). -/
def joinSep (sep : Char) : List (List Char) → List Char
  | [] => []
  | [x] => x
  | x :: y :: ys => x ++ sep :: joinSep sep (y :: ys)

/-- Split a character list at its last occurrence of `'.'`:
`some (a, b)` means the input is `a ++ '.' :: b` with `'.' ∉ b`. -/
def lastDotSplit (l : List Char) : Option (List Char × List Char) :=
  match splitFirst '.' l.reverse with
  | none => none
  | some (a, b) => some (b.reverse, a.reverse)

/-! ### `std::path::Path` modelling -/

/-- Models `Path::file_name` on a path string: the final normal component
(empty and `.` components are normalized away, a trailing `..` has no file
name). -/
def fileName (p : String) : Option String :=
  let comps := (splitAll '/' p.data).filter (fun c => !c.isEmpty && c ≠ ['.'])
  match comps.getLast? with
  | none => none
  | some l => if l = ['.', '.'] then none else some ⟨l⟩

/-- Models the split that backs `Path::file_stem` / `Path::extension` on a
file name: split at the last `'.'`; when there is no dot, or the only
portion before the last dot is empty (a leading-dot file such as
`.gitignore`), the whole name is the stem and there is no extension. -/
def stemExt (f : List Char) : List Char × Option (List Char) :=
  match lastDotSplit f with
  | none => (f, none)
  | some ([], _) => (f, none)
  | some (st, ex) => (st, some ex)

/-! ### Dates (`chrono::NaiveDate` restricted to the pipeline's use) -/

/-- Proleptic-Gregorian leap-year rule used by `chrono`. -/
def isLeap (y : Nat) : Bool := y % 4 == 0 && (y % 100 != 0 || y % 400 == 0)

/-- Days in a month of the proleptic Gregorian calendar. -/
def daysInMonth (y m : Nat) : Nat :=
  if m = 2 then (if isLeap y then 29 else 28)
  else if m = 4 ∨ m = 6 ∨ m = 9 ∨ m = 11 then 30
  else 31

/-- Calendar date.  Models `chrono::NaiveDate` restricted to non-negative
years; the pipeline only ever constructs dates through `%Y-%m-%d` parsing. -/
structure Date where
  year : Nat
  month : Nat
  day : Nat
deriving DecidableEq, Repr

/-- Calendar validity as checked by `NaiveDate` construction, restricted to
the four-digit year regime `0..=9999` that `%Y` prints without a sign. -/
def Date.Valid (d : Date) : Prop :=
  1 ≤ d.month ∧ d.month ≤ 12 ∧ 1 ≤ d.day ∧ d.day ≤ daysInMonth d.year d.month ∧
    d.year ≤ 9999

instance (d : Date) : Decidable d.Valid := by
  unfold Date.Valid; infer_instance

/-- Models `NaiveDate::year_ce().1` for the non-negative years of this
model: the common-era year number (year 0 = 1 BCE has CE number 1). -/
def yearCE (d : Date) : Nat := if d.year = 0 then 1 else d.year

/-- Numeric key realizing the `NaiveDate` ordering on valid dates
(lexicographic in year, month, day). -/
def Date.key (d : Date) : Nat := d.year * 10000 + d.month * 100 + d.day

/-- Numeric value of an ASCII digit character. -/
def digitVal (c : Char) : Nat := c.toNat - 48

/-- Fold a digit string into the number it denotes, most significant first. -/
def digitsToNat (l : List Char) : Nat := l.foldl (fun a c => a * 10 + digitVal c) 0

/-- Parse one or two leading ASCII digits (models the width-2 numeric
fields `%m` / `%d` of `chrono`'s parser). -/
def parse2 : List Char → Option (Nat × List Char)
  | [] => none
  | [c1] => if c1.isDigit then some (digitVal c1, []) else none
  | c1 :: c2 :: rest =>
    if c1.isDigit then
      if c2.isDigit then some (digitVal c1 * 10 + digitVal c2, rest)
      else some (digitVal c1, c2 :: rest)
    else none

/-- Models `NaiveDate::parse_from_str(s, "%Y-%m-%d")` for non-negative
years: greedy digits for the year, a literal `-`, up to two digits for the
month, a literal `-`, up to two digits for the day, end of input, then the
calendar-validity check of `NaiveDate` construction. -/
def parse_ymd (s : List Char) : Option Date :=
  let ys := s.takeWhile (·.isDigit)
  let r0 := s.dropWhile (·.isDigit)
  if ys.isEmpty then none
  else
    match r0 with
    | '-' :: r1 =>
      match parse2 r1 with
      | some (m, '-' :: r2) =>
        match parse2 r2 with
        | some (d, []) =>
          let date : Date := ⟨digitsToNat ys, m, d⟩
          if date.Valid then some date else none
        | _ => none
      | _ => none
    | _ => none

/-- Two-digit zero-padded rendering (Rust `{:02}`) for the month and day
values the pipeline produces, which are always below 100. -/
def pad2Chars (n : Nat) : List Char := [Nat.digitChar (n / 10), Nat.digitChar (n % 10)]

/-- Four-digit zero-padded rendering of a year `0..=9999` (`%Y`). -/
def pad4Chars (n : Nat) : List Char :=
  [Nat.digitChar (n / 1000), Nat.digitChar (n / 100 % 10),
   Nat.digitChar (n / 10 % 10), Nat.digitChar (n % 10)]

/-- The `<YYYY-MM-DD>` rendering of a date, as used to construct the file
names of §8's round-trip property. -/
def dateString (d : Date) : String :=
  ⟨pad4Chars d.year ++ '-' :: pad2Chars d.month ++ '-' :: pad2Chars d.day⟩

/-- Rust `{}` rendering of a `u32` (no padding), as used for the year in
`format!("{}/{:02}/{:02}", ...)`. -/
def natStr (n : Nat) : String := Nat.repr n

/-! ### The data model of `src/main.rs` -/

/-- `ContentMetaUnit` from `src/main.rs` lines 10-18. -/
structure ContentMetaUnit where
  date : Date
  name : String
  filesystem_friendly_name : String
  file_ext : String
  categories : List String
  path : String
deriving DecidableEq, Repr

/-- `ContentUnit` from `src/main.rs` lines 20-23. -/
structure ContentUnit where
  meta : ContentMetaUnit
  contents : String
deriving DecidableEq, Repr

/-- The error values the pipeline produces (`io::Error` payloads in the
source): the shared "error getting PathBuf filename" error used for a
missing stem or extension, the `splitn 2 '_'` malformed-filename error
carrying the offending stem, the `chrono` date-parse error, and the
`files_map` "unexpected duplicate content file." error. -/
inductive WeaveErr where
  | filenameGet : WeaveErr
  | malformedFilename : String → WeaveErr
  | invalidDate : WeaveErr
  | duplicateContent : WeaveErr
deriving DecidableEq, Repr

/-- `content_file_metadata` from `src/main.rs` lines 156-210: extract the
file stem and extension, split the stem once at the first `_`, parse the
date prefix, and assemble the `ContentMetaUnit` with the categories taken
from splitting the output-root string on `/` and the path
`<root>/<year_ce>/<month:02>/<day:02>`. -/
def content_file_metadata (p : String) (content_output_root_path : String) :
    Except WeaveErr ContentMetaUnit :=
  match fileName p with
  | none => .error .filenameGet
  | some f =>
    match stemExt f.data with
    | (_, none) => .error .filenameGet
    | (stemChars, some extChars) =>
      match splitFirst '_' stemChars with
      | none => .error (.malformedFilename ⟨stemChars⟩)
      | some (dateChars, nameChars) =>
        match parse_ymd dateChars with
        | none => .error .invalidDate
        | some date =>
          let categories : List String :=
            (splitAll '/' content_output_root_path.data).map (fun c => (⟨c⟩ : String))
          let year_month_day : String :=
            natStr (yearCE date) ++ "/" ++ (⟨pad2Chars date.month⟩ : String)
              ++ "/" ++ (⟨pad2Chars date.day⟩ : String)
          let path := content_output_root_path ++ "/" ++ year_month_day
          .ok {
            date := date
            name := ⟨nameChars⟩
            filesystem_friendly_name := friendly_filename ⟨nameChars⟩
            file_ext := ⟨extChars⟩
            categories := categories
            path := path
          }

/-- `BTreeMap::insert` modelled on an association list: replace and return
the previous value when the key is present, otherwise add the binding and
return `none`. -/
def mapInsert : List (String × ContentMetaUnit) → String → ContentMetaUnit →
    Option ContentMetaUnit × List (String × ContentMetaUnit)
  | [], k, v => (none, [(k, v)])
  | (k', v') :: rest, k, v =>
    if k' = k then (some v', (k, v) :: rest)
    else
      let (old, rest') := mapInsert rest k v
      (old, (k', v') :: rest')

/-- Loop body of `files_map` from `src/main.rs` lines 212-232: parse each
file's metadata, insert it under its path, and — exactly as the source's
`if let None = ... .insert(...)` does — fail with the duplicate-content
error when the insert reports the key was *not* previously present. -/
def files_map_go (root : String) :
    List String → List (String × ContentMetaUnit) →
      Except WeaveErr (List (String × ContentMetaUnit))
  | [], acc => .ok acc
  | p :: ps, acc =>
    match content_file_metadata p root with
    | .error e => .error e
    | .ok meta =>
      match mapInsert acc p meta with
      | (none, _) => .error .duplicateContent
      | (some _, acc') => files_map_go root ps acc'

/-- `files_map` from `src/main.rs` lines 212-232. -/
def files_map (content_file_paths : List String) (content_output_root_path : String) :
    Except WeaveErr (List (String × ContentMetaUnit)) :=
  files_map_go content_output_root_path content_file_paths []

/-! ### Chronological indexer (`entries_map`) -/

/-- Insert a unit at the end of the bucket for `yearCE` of its date in an
association list ordered by ascending year key (models
`BTreeMap::entry(..).or_insert(..).push(..)`). -/
def insertYear (u : ContentMetaUnit) :
    List (Nat × List ContentMetaUnit) → List (Nat × List ContentMetaUnit)
  | [] => [(yearCE u.date, [u])]
  | (y, us) :: rest =>
    if yearCE u.date = y then (y, us ++ [u]) :: rest
    else if yearCE u.date < y then (yearCE u.date, [u]) :: (y, us) :: rest
    else (y, us) :: insertYear u rest

/-- Stable insertion into a list sorted by descending date key: the new
element goes in front of the first element whose date is `≤` its own, so
an element arriving later never overtakes an equal-dated earlier one.
Realizes the observable effect of the stable
`units.sort_by(|a, b| b.date.cmp(&a.date))`. -/
def insertDesc (u : ContentMetaUnit) : List ContentMetaUnit → List ContentMetaUnit
  | [] => [u]
  | v :: vs =>
    if v.date.key ≤ u.date.key then u :: v :: vs
    else v :: insertDesc u vs

/-- Stable sort by descending date (models the stable `sort_by` above). -/
def sortDesc : List ContentMetaUnit → List ContentMetaUnit
  | [] => []
  | u :: us => insertDesc u (sortDesc us)

/-- `entries_map` from `src/main.rs` lines 234-251: fold the metadata
units (in map-iteration order) into year buckets, then sort every bucket
by descending date.  The result is the `BTreeMap<u32, Vec<ContentMetaUnit>>`
as an association list in ascending year order. -/
def entries_map (units : List ContentMetaUnit) : List (Nat × List ContentMetaUnit) :=
  (units.foldl (fun m u => insertYear u m) []).map (fun yu => (yu.1, sortDesc yu.2))

/-! ### Content materializer -/

/-- A filesystem side effect of the materializer. -/
inductive FsOp where
  | createDirAll : String → FsOp
  | write : String → String → FsOp
deriving DecidableEq, Repr

/-- `content_unit_contents` from `src/main.rs` lines 267-281 with the file
read supplied as the already-obtained body: the fixed AsciiDoc header, the
rendered title, then the original body. -/
def content_unit_contents (title : String) (body : String) : String :=
  ":base-path: ../../../..\n\ninclude::\x7bbase-path\x7d/head.adoc[]\n\n== "
    ++ title ++ "\n\n" ++ body

/-- The fixed directory the materializer roots every output path at:
`format!("content/{}", ...)` in `src/main.rs` lines 339-340. -/
def output_root : String := "content"

/-- `construct_content_filesystem` from `src/main.rs` lines 328-351,
modelled with reads as a total oracle `readFile` and writes as a list of
`FsOp`: for each map entry, create `content/<path>` and write the
transformed body to `content/<path>/<slug>.<ext>`, collecting the
`ContentUnit`s in order. -/
def construct_content_filesystem (readFile : String → String)
    (content_files_meta_data : List (String × ContentMetaUnit)) :
    List FsOp × List ContentUnit :=
  match content_files_meta_data with
  | [] => ([], [])
  | (p, meta) :: rest =>
    let content_file_output_path :=
      meta.path ++ "/" ++ meta.filesystem_friendly_name ++ "." ++ meta.file_ext
    let contents := content_unit_contents meta.name (readFile p)
    let dir := "content/" ++ meta.path
    let path := "content/" ++ content_file_output_path
    let (ops, units) := construct_content_filesystem readFile rest
    (FsOp.createDirAll dir :: FsOp.write path contents :: ops,
      { meta := meta, contents := contents } :: units)

/-- The per-entry filesystem operations of the materializer (destination
directory, then destination file with the transformed body). -/
def unitOps (readFile : String → String) (pm : String × ContentMetaUnit) : List FsOp :=
  [FsOp.createDirAll (output_root ++ "/" ++ pm.2.path),
   FsOp.write
     (output_root ++ "/" ++ pm.2.path ++ "/" ++ pm.2.filesystem_friendly_name
       ++ "." ++ pm.2.file_ext)
     (content_unit_contents pm.2.name (readFile pm.1))]

/-! ### Configuration derivation (`cfg`) -/

/-- The path-derived part of `Cfg` from `src/main.rs` lines 25-79 (the
resolved input path and the existence checks are I/O and are not
modelled): output root components, optional author, category components,
and the joined category display string. -/
structure CfgDerived where
  output_root_components : List String
  author : Option String
  categories : List String
  category : String
deriving DecidableEq, Repr

/-- Rust `str::trim_start_matches('.')`: drop every leading dot. -/
def trimLeadingDots (s : String) : String := ⟨s.data.dropWhile (· = '.')⟩

/-- Rust `str::starts_with('.')`: does the first character exist and equal
a dot. -/
def startsWithDot (s : String) : Bool :=
  match s.data with
  | '.' :: _ => true
  | _ => false

/-- The anchor-relative derivation in `cfg` (`src/main.rs` lines 43-72) on
the normalized component list of the input path: find the first component
equal to `.content`; the components after it give the output root and the
categories (all of them), and the author is the first such component when
it starts with a dot, with its leading dots trimmed.  `none` models the
missing-anchor error. -/
def cfg_derive (components : List String) : Option CfgDerived :=
  match components.findIdx? (· = ".content") with
  | none => none
  | some i =>
    let after_content := components.drop (i + 1)
    let author :=
      (after_content.head?.filter (fun c => startsWithDot c)).map trimLeadingDots
    some {
      output_root_components := after_content
      author := author
      categories := after_content
      category := String.intercalate "/" after_content
    }

/-- The category lineage as §4.3 of the spec words it, for comparison with
`cfg_derive`: the components after the anchor, excluding a single leading
dot-prefixed component when one is present. -/
def spec_lineage (after_content : List String) : List String :=
  match after_content with
  | [] => []
  | a :: rest => if startsWithDot a then rest else a :: rest

/-- Join category strings with `/` (inverse of the `split('/')` the parser
performs on the output-root string). -/
def joinSlash (cats : List String) : String := ⟨joinSep '/' (cats.map String.data)⟩

/-- A concrete metadata unit used to exercise the indexer and materializer. -/
def sampleUnit (d : Date) (nm : String) : ContentMetaUnit :=
  { date := d
    name := nm
    filesystem_friendly_name := friendly_filename nm
    file_ext := "adoc"
    categories := ["blog"]
    path := "blog" ++ "/" ++ natStr (yearCE d) ++ "/" ++ (⟨pad2Chars d.month⟩ : String)
      ++ "/" ++ (⟨pad2Chars d.day⟩ : String) }

/-- The unit `content_file_metadata` produces for
`2023-07-04_Hello World.adoc` under output root `blog`. -/
def helloUnit : ContentMetaUnit :=
  { date := ⟨2023, 7, 4⟩
    name := "Hello World"
    filesystem_friendly_name := "hello_world"
    file_ext := "adoc"
    categories := ["blog"]
    path := "blog/2023/07/04" }

/-- Decidable equality for `Except` results (not provided by core). -/
instance {ε α : Type} [DecidableEq ε] [DecidableEq α] : DecidableEq (Except ε α) :=
  fun x y =>
    match x, y with
    | .error a, .error b =>
      if h : a = b then .isTrue (h ▸ rfl) else .isFalse (fun he => h (Except.error.inj he))
    | .error _, .ok _ => .isFalse (fun he => Except.noConfusion he)
    | .ok _, .error _ => .isFalse (fun he => Except.noConfusion he)
    | .ok a, .ok b =>
      if h : a = b then .isTrue (h ▸ rfl) else .isFalse (fun he => h (Except.ok.inj he))

/-- The unit `content_file_metadata` produces for `2023-01-01_a.md` under
output root `blog`. -/
def alphaUnit : ContentMetaUnit :=
  { date := ⟨2023, 1, 1⟩
    name := "a"
    filesystem_friendly_name := "a"
    file_ext := "md"
    categories := ["blog"]
    path := "blog/2023/01/01" }

end WebWeaver

namespace WebWeaver

/-! ## Character-level lemmas -/

theorem char_eq_iff_toNat {c d : Char} : c = d ↔ c.toNat = d.toNat := by
  constructor
  · intro h; rw [h]
  · intro h
    apply Char.ext
    apply UInt32.toNat.inj
    exact h

theorem isUpper_iff {c : Char} : c.isUpper = true ↔ 65 ≤ c.toNat ∧ c.toNat ≤ 90 := by
  simp [Char.isUpper, Char.toNat, UInt32.le_def, BitVec.le_def, UInt32.toNat]

theorem isLower_iff {c : Char} : c.isLower = true ↔ 97 ≤ c.toNat ∧ c.toNat ≤ 122 := by
  simp [Char.isLower, Char.toNat, UInt32.le_def, BitVec.le_def, UInt32.toNat]

theorem isDigit_iff {c : Char} : c.isDigit = true ↔ 48 ≤ c.toNat ∧ c.toNat ≤ 57 := by
  simp [Char.isDigit, Char.toNat, UInt32.le_def, BitVec.le_def, UInt32.toNat]

theorem is_alphanumeric_iff {c : Char} :
    is_alphanumeric c = true ↔
      (48 ≤ c.toNat ∧ c.toNat ≤ 57) ∨ (65 ≤ c.toNat ∧ c.toNat ≤ 90) ∨
        (97 ≤ c.toNat ∧ c.toNat ≤ 122) := by
  simp only [is_alphanumeric, Char.isAlphanum, Char.isAlpha, Bool.or_eq_true]
  rw [isUpper_iff, isLower_iff, isDigit_iff]
  tauto

theorem toNat_ofNat_lt {n : Nat} (h : n < 55296) : (Char.ofNat n).toNat = n := by
  rw [Char.ofNat, dif_pos (Or.inl h)]
  simp [Char.ofNatAux, Char.toNat, UInt32.toNat]

theorem toNat_to_ascii_lowercase (c : Char) :
    (to_ascii_lowercase c).toNat =
      if 65 ≤ c.toNat ∧ c.toNat ≤ 90 then c.toNat + 32 else c.toNat := by
  unfold to_ascii_lowercase Char.toLower
  split
  · next h =>
    rw [if_pos ⟨h.1, h.2⟩, toNat_ofNat_lt (by omega)]
  · next h =>
    rw [if_neg (fun hc => h ⟨hc.1, hc.2⟩)]

theorem is_alphanumeric_to_ascii_lowercase {c : Char} (h : is_alphanumeric c = true) :
    is_alphanumeric (to_ascii_lowercase c) = true := by
  rw [is_alphanumeric_iff] at h ⊢
  rw [toNat_to_ascii_lowercase]
  split <;> omega

theorem to_ascii_lowercase_idem (c : Char) :
    to_ascii_lowercase (to_ascii_lowercase c) = to_ascii_lowercase c := by
  rw [char_eq_iff_toNat, toNat_to_ascii_lowercase, toNat_to_ascii_lowercase]
  by_cases h : 65 ≤ c.toNat ∧ c.toNat ≤ 90
  · simp only [if_pos h]
    rw [if_neg (by omega)]
  · simp only [if_neg h]

theorem isUpper_to_ascii_lowercase (c : Char) :
    (to_ascii_lowercase c).isUpper = false := by
  rw [← Bool.not_eq_true, isUpper_iff, toNat_to_ascii_lowercase]
  split <;> omega

theorem to_ascii_lowercase_ne_space {c : Char} (h : is_alphanumeric c = true) :
    to_ascii_lowercase c ≠ ' ' := by
  rw [is_alphanumeric_iff] at h
  rw [Ne, char_eq_iff_toNat, toNat_to_ascii_lowercase]
  have hsp : (' ' : Char).toNat = 32 := rfl
  rw [hsp]
  split <;> omega

/-! ## String and `friendly_filename` lemmas -/

theorem string_data_ext {s t : String} (h : s.data = t.data) : s = t := by
  cases s; cases t; exact congrArg String.mk h

theorem string_mk_data (s : String) : (⟨s.data⟩ : String) = s := by
  cases s; rfl

theorem friendly_foldl (l : List Char) (acc : List Char) :
    l.foldl
      (fun result c =>
        if is_alphanumeric c then result ++ [to_ascii_lowercase c]
        else if c = ' ' then result ++ ['_']
        else result)
      acc = acc ++ l.filterMap slug_char_spec := by
  induction l generalizing acc with
  | nil => simp
  | cons c rest ih =>
    by_cases h1 : is_alphanumeric c
    · have hspec : slug_char_spec c = some (to_ascii_lowercase c) := by
        unfold slug_char_spec; rw [if_pos h1]
      rw [List.foldl_cons, if_pos h1, List.filterMap_cons, hspec, ih]
      simp
    · by_cases h2 : c = ' '
      · have hspec : slug_char_spec c = some '_' := by
          unfold slug_char_spec; rw [if_neg h1, if_pos h2]
        rw [List.foldl_cons, if_neg h1, if_pos h2, List.filterMap_cons, hspec, ih]
        simp
      · have hspec : slug_char_spec c = none := by
          unfold slug_char_spec; rw [if_neg h1, if_neg h2]
        rw [List.foldl_cons, if_neg h1, if_neg h2, List.filterMap_cons, hspec, ih]

theorem friendly_filename_data (s : String) :
    (friendly_filename s).data = s.data.filterMap slug_char_spec := by
  show s.data.foldl _ [] = _
  rw [friendly_foldl]
  simp

theorem filterMap_slug_idem (l : List Char) (hl : ∀ c ∈ l, c ≠ ' ') :
    (l.filterMap slug_char_spec).filterMap slug_char_spec =
      l.filterMap slug_char_spec := by
  induction l with
  | nil => simp
  | cons c rest ih =>
    have hc : c ≠ ' ' := hl c (by simp)
    have hrest : ∀ x ∈ rest, x ≠ ' ' := fun x hx => hl x (by simp [hx])
    by_cases h1 : is_alphanumeric c
    · have h2 : slug_char_spec c = some (to_ascii_lowercase c) := by
        simp [slug_char_spec, h1]
      have h3 : slug_char_spec (to_ascii_lowercase c) = some (to_ascii_lowercase c) := by
        simp [slug_char_spec, is_alphanumeric_to_ascii_lowercase h1, to_ascii_lowercase_idem]
      simp [List.filterMap_cons, h2, h3, ih hrest]
    · have h2 : slug_char_spec c = none := by
        simp [slug_char_spec, h1, hc]
      simp [List.filterMap_cons, h2, ih hrest]

/-! ## Claim theorems about the Friendly-Name Normalizer -/

/-- Claim C8: the slug function keeps each alphanumeric character
lowercased, maps each space to `_`, and drops every other character with
no substitute, so `"My, Post!"` and `"My Post"` — distinct names differing
only in punctuation — both collapse to `my_post`. -/
theorem friendly_filename_char_mapping :
    (∀ s : String, friendly_filename s = ⟨s.data.filterMap slug_char_spec⟩) ∧
    friendly_filename "My, Post!" = "my_post" ∧
    friendly_filename "My Post" = "my_post" ∧
    ("My, Post!" : String) ≠ "My Post" := by
  refine ⟨fun s => ?_, by decide, by decide, by decide⟩
  apply string_data_ext
  rw [friendly_filename_data]

/-- Claim C3 counterexample: `friendly_filename` is not idempotent — on
`"a b"` the first application produces `a_b` and the second drops the
underscore, producing `ab`. -/
theorem friendly_filename_not_idempotent :
    friendly_filename (friendly_filename "a b") ≠ friendly_filename "a b" := by
  decide

/-- Claim C3 (amended): `friendly_filename` is idempotent on every input
containing no space character; in general a second application drops the
underscores that the first application substituted for spaces. -/
theorem friendly_filename_idempotent_on_spaceless :
    ∀ s : String, (∀ c ∈ s.data, c ≠ ' ') →
      friendly_filename (friendly_filename s) = friendly_filename s := by
  intro s hs
  apply string_data_ext
  rw [friendly_filename_data, friendly_filename_data]
  exact filterMap_slug_idem s.data hs

/-- Witness for the amended C3 at the space-free input `"Ab1"`. -/
theorem friendly_filename_idempotent_on_spaceless_app :
    friendly_filename (friendly_filename "Ab1") = friendly_filename "Ab1" :=
  friendly_filename_idempotent_on_spaceless "Ab1" (by decide)

/-- Claim C10: every character of a `friendly_filename` output is either
`_` or an alphanumeric character, and is never a space and never an ASCII
uppercase letter. -/
theorem friendly_filename_output_invariant :
    ∀ (s : String) (c : Char), c ∈ (friendly_filename s).data →
      c ≠ ' ' ∧ c.isUpper = false ∧ (c = '_' ∨ is_alphanumeric c = true) := by
  intro s c hc
  rw [friendly_filename_data, List.mem_filterMap] at hc
  obtain ⟨a, _, ha⟩ := hc
  unfold slug_char_spec at ha
  by_cases h1 : is_alphanumeric a
  · rw [if_pos h1] at ha
    obtain rfl : to_ascii_lowercase a = c := Option.some_inj.mp ha
    exact ⟨to_ascii_lowercase_ne_space h1, isUpper_to_ascii_lowercase a,
      Or.inr (is_alphanumeric_to_ascii_lowercase h1)⟩
  · rw [if_neg h1] at ha
    by_cases h2 : a = ' '
    · rw [if_pos h2] at ha
      obtain rfl : '_' = c := Option.some_inj.mp ha
      exact ⟨by decide, by decide, Or.inl rfl⟩
    · rw [if_neg h2] at ha
      cases ha

/-- Witness for C10 at `s = "A b!"` and the output character `a`. -/
theorem friendly_filename_output_invariant_app :
    ('a' : Char) ≠ ' ' ∧ ('a' : Char).isUpper = false ∧
      (('a' : Char) = '_' ∨ is_alphanumeric 'a' = true) :=
  friendly_filename_output_invariant "A b!" 'a' (by decide)

/-! ## Claim theorems about `files_map` -/

/-- Claim C1 (code bug): at two distinct, individually well-formed input
paths `files_map` does not accept both into the map — it fails with the
duplicate-content error on the very first (fresh) insertion, because the
source checks `if let None = map.insert(..)` where `None` means the key
was not previously present. -/
theorem files_map_fresh_insert_error :
    files_map ["2023-01-01_a.md", "2023-01-02_b.md"] "blog" =
        .error .duplicateContent ∧
      ("2023-01-01_a.md" : String) ≠ "2023-01-02_b.md" ∧
      (content_file_metadata "2023-01-01_a.md" "blog").isOk = true ∧
      (content_file_metadata "2023-01-02_b.md" "blog").isOk = true := by
  refine ⟨by rfl, by decide, by rfl, by rfl⟩

/-- Claim C2: whenever the first entry of a non-empty path list parses
successfully, `files_map` fails with the duplicate-content error (the
insert-result check fires on every fresh key), and on the empty list it
succeeds with the empty map. -/
theorem files_map_nonempty_always_errors :
    (∀ (root p : String) (ps : List String) (u : ContentMetaUnit),
      content_file_metadata p root = .ok u →
        files_map (p :: ps) root = .error .duplicateContent) ∧
    (∀ root : String, files_map [] root = .ok []) := by
  constructor
  · intro root p ps u h
    unfold files_map files_map_go
    rw [h]
    rfl
  · intro root
    rfl


/-- Witness helper fact: the metadata `files_map` parses for
`2023-01-01_a.md` under output root `blog` is `alphaUnit`. -/
theorem alphaUnit_parse :
    content_file_metadata "2023-01-01_a.md" "blog" = .ok alphaUnit := by
  rfl

/-- Witness for C2 at the single parseable path `2023-01-01_a.md`. -/
theorem files_map_nonempty_always_errors_app :
    files_map ["2023-01-01_a.md"] "blog" = .error .duplicateContent :=
  files_map_nonempty_always_errors.1 "blog" "2023-01-01_a.md" [] alphaUnit alphaUnit_parse

/-! ## Splitting lemmas -/

theorem splitFirst_eq_none {sep : Char} :
    ∀ {l : List Char}, sep ∉ l → splitFirst sep l = none := by
  intro l
  induction l with
  | nil => intro h; rfl
  | cons c rest ih =>
    intro h
    have hc : c ≠ sep := fun e => h (e ▸ List.mem_cons_self c rest)
    have hr : sep ∉ rest := fun e => h (List.mem_cons_of_mem c e)
    unfold splitFirst
    rw [if_neg hc, ih hr]

theorem splitFirst_append {sep : Char} {b : List Char} :
    ∀ {a : List Char}, sep ∉ a → splitFirst sep (a ++ sep :: b) = some (a, b) := by
  intro a
  induction a with
  | nil =>
    intro h
    show splitFirst sep (sep :: b) = _
    unfold splitFirst
    rw [if_pos rfl]
  | cons c rest ih =>
    intro h
    have hc : c ≠ sep := fun e => h (e ▸ List.mem_cons_self c rest)
    have hr : sep ∉ rest := fun e => h (List.mem_cons_of_mem c e)
    show splitFirst sep (c :: (rest ++ sep :: b)) = _
    unfold splitFirst
    rw [if_neg hc, ih hr]

theorem splitAllAux_no_sep {sep : Char} :
    ∀ {l : List Char} (cur : List Char), sep ∉ l →
      splitAllAux sep l cur = [cur.reverse ++ l] := by
  intro l
  induction l with
  | nil => intro cur h; simp [splitAllAux]
  | cons c rest ih =>
    intro cur h
    have hc : c ≠ sep := fun e => h (e ▸ List.mem_cons_self c rest)
    have hr : sep ∉ rest := fun e => h (List.mem_cons_of_mem c e)
    unfold splitAllAux
    rw [if_neg hc, ih (c :: cur) hr]
    simp

theorem splitAll_no_sep {sep : Char} {l : List Char} (h : sep ∉ l) :
    splitAll sep l = [l] := by
  unfold splitAll
  rw [splitAllAux_no_sep [] h]
  rfl

theorem lastDotSplit_append {a b : List Char} (h : ('.' : Char) ∉ b) :
    lastDotSplit (a ++ '.' :: b) = some (a, b) := by
  unfold lastDotSplit
  have hrev : (a ++ '.' :: b).reverse = b.reverse ++ '.' :: a.reverse := by
    simp
  rw [hrev, splitFirst_append (by simpa using h)]
  simp

theorem stemExt_append {st e : List Char} (h : ('.' : Char) ∉ e) (hst : st ≠ []) :
    stemExt (st ++ '.' :: e) = (st, some e) := by
  unfold stemExt
  rw [lastDotSplit_append h]
  cases st with
  | nil => exact absurd rfl hst
  | cons c cs => rfl

theorem fileName_of_no_slash {p : String} (h : ('/' : Char) ∉ p.data)
    (h1 : p.data ≠ []) (h2 : p.data ≠ ['.']) (h3 : p.data ≠ ['.', '.']) :
    fileName p = some p := by
  unfold fileName
  rw [splitAll_no_sep h]
  have hkeep : (!p.data.isEmpty && decide (p.data ≠ ['.'])) = true := by
    cases hd : p.data with
    | nil => exact absurd hd h1
    | cons c cs =>
      simp only [List.isEmpty_cons, Bool.not_false, Bool.true_and, decide_eq_true_eq]
      rw [← hd]
      exact h2
  simp only [List.filter_cons, List.filter_nil]
  rw [hkeep]
  show (match [p.data].getLast? with
    | none => none
    | some l => if l = ['.', '.'] then none else some (⟨l⟩ : String)) = some p
  have hlast : [p.data].getLast? = some p.data := rfl
  rw [hlast]
  show (if p.data = ['.', '.'] then none else some (⟨p.data⟩ : String)) = some p
  rw [if_neg h3, string_mk_data]

/-! ## Date rendering and parsing lemmas -/

theorem digitVal_digitChar {k : Nat} (h : k < 10) :
    digitVal (Nat.digitChar k) = k := by
  interval_cases k <;> rfl

theorem isDigit_digitChar {k : Nat} (h : k < 10) :
    (Nat.digitChar k).isDigit = true := by
  interval_cases k <;> rfl

theorem daysInMonth_le (y m : Nat) : daysInMonth y m ≤ 31 := by
  unfold daysInMonth
  split
  · split <;> omega
  · split <;> omega

theorem mem_pad4 {y : Nat} (hy : y ≤ 9999) :
    ∀ c ∈ pad4Chars y, c.isDigit = true := by
  intro c hc
  unfold pad4Chars at hc
  simp only [List.mem_cons, List.not_mem_nil, or_false] at hc
  rcases hc with rfl | rfl | rfl | rfl <;> exact isDigit_digitChar (by omega)

theorem mem_pad2 {n : Nat} (hn : n < 100) :
    ∀ c ∈ pad2Chars n, c.isDigit = true := by
  intro c hc
  unfold pad2Chars at hc
  simp only [List.mem_cons, List.not_mem_nil, or_false] at hc
  rcases hc with rfl | rfl <;> exact isDigit_digitChar (by omega)

theorem dateString_data (d : Date) :
    (dateString d).data =
      pad4Chars d.year ++ '-' :: (pad2Chars d.month ++ '-' :: pad2Chars d.day) := by
  simp [dateString]

theorem dateString_mem {d : Date} (hv : d.Valid) :
    ∀ c ∈ (dateString d).data, c.isDigit = true ∨ c = '-' := by
  obtain ⟨hm1, hm2, hd1, hd2, hy⟩ := hv
  intro c hc
  rw [dateString_data] at hc
  simp only [List.mem_append, List.mem_cons] at hc
  have hdm := daysInMonth_le d.year d.month
  rcases hc with h4 | rfl | hm | rfl | hd
  · exact Or.inl (mem_pad4 hy c h4)
  · exact Or.inr rfl
  · exact Or.inl (mem_pad2 (by omega) c hm)
  · exact Or.inr rfl
  · exact Or.inl (mem_pad2 (by omega) c hd)

theorem not_mem_dateString {x : Char} (hx1 : x.isDigit = false) (hx2 : x ≠ '-')
    {d : Date} (hv : d.Valid) : x ∉ (dateString d).data := by
  intro hmem
  rcases dateString_mem hv x hmem with h | h
  · rw [hx1] at h; cases h
  · exact hx2 h

theorem takeWhile_digits_append {c : Char} (hc : c.isDigit = false) (r : List Char) :
    ∀ {ds : List Char}, (∀ x ∈ ds, x.isDigit = true) →
      (ds ++ c :: r).takeWhile (·.isDigit) = ds ∧
        (ds ++ c :: r).dropWhile (·.isDigit) = c :: r := by
  intro ds
  induction ds with
  | nil =>
    intro _
    constructor
    · show (c :: r).takeWhile (·.isDigit) = []
      rw [List.takeWhile_cons, hc]
      rfl
    · show (c :: r).dropWhile (·.isDigit) = c :: r
      rw [List.dropWhile_cons, hc]
      rfl
  | cons x xs ih =>
    intro hds
    have hx : x.isDigit = true := hds x (List.mem_cons_self x xs)
    have hxs : ∀ y ∈ xs, y.isDigit = true := fun y hy => hds y (List.mem_cons_of_mem x hy)
    obtain ⟨iht, ihd⟩ := ih hxs
    constructor
    · show ((x :: (xs ++ c :: r)).takeWhile (·.isDigit)) = x :: xs
      rw [List.takeWhile_cons, hx]
      simpa using iht
    · show ((x :: (xs ++ c :: r)).dropWhile (·.isDigit)) = c :: r
      rw [List.dropWhile_cons, hx]
      simpa using ihd

theorem digitsToNat_pad4 {y : Nat} (h : y ≤ 9999) :
    digitsToNat (pad4Chars y) = y := by
  unfold digitsToNat pad4Chars
  simp only [List.foldl_cons, List.foldl_nil]
  rw [digitVal_digitChar (by omega), digitVal_digitChar (by omega),
    digitVal_digitChar (by omega), digitVal_digitChar (by omega)]
  omega

theorem parse2_pad2 {n : Nat} (h : n < 100) (rest : List Char) :
    parse2 (pad2Chars n ++ rest) = some (n, rest) := by
  show parse2 (Nat.digitChar (n / 10) :: Nat.digitChar (n % 10) :: rest) = _
  show (if (Nat.digitChar (n / 10)).isDigit = true then
      if (Nat.digitChar (n % 10)).isDigit = true then
        some (digitVal (Nat.digitChar (n / 10)) * 10 + digitVal (Nat.digitChar (n % 10)), rest)
      else some (digitVal (Nat.digitChar (n / 10)), Nat.digitChar (n % 10) :: rest)
    else none) = some (n, rest)
  rw [if_pos (isDigit_digitChar (by omega)), if_pos (isDigit_digitChar (by omega)),
    digitVal_digitChar (by omega), digitVal_digitChar (by omega)]
  have hval : n / 10 * 10 + n % 10 = n := by omega
  rw [hval]

theorem parse_ymd_dateString {d : Date} (hv : d.Valid) :
    parse_ymd (dateString d).data = some d := by
  have hvv := hv
  obtain ⟨hm1, hm2, hd1, hd2, hy⟩ := hvv
  have hdm := daysInMonth_le d.year d.month
  rw [dateString_data]
  have htake := takeWhile_digits_append (c := '-') (by rfl)
    (pad2Chars d.month ++ '-' :: pad2Chars d.day) (mem_pad4 hy)
  have hempty : (pad4Chars d.year).isEmpty = false := rfl
  have hp1 : parse2 (pad2Chars d.month ++ '-' :: pad2Chars d.day) =
      some (d.month, '-' :: pad2Chars d.day) := parse2_pad2 (by omega) _
  have hp2 : parse2 (pad2Chars d.day) = some (d.day, []) := by
    have hraw := parse2_pad2 (show d.day < 100 by omega) ([] : List Char)
    simpa using hraw
  simp only [parse_ymd, htake.1, htake.2, hempty, Bool.false_eq_true, if_false,
    hp1, hp2, digitsToNat_pad4 hy]
  show (if Date.Valid d then some d else none) = some d
  rw [if_pos hv]

/-! ## Claim theorems about the Filename Metadata Parser -/

/-- Claim C4 counterexample: the stem `2023-01-01_my_post` contains two
underscores, yet the parser accepts the file name (splitting at the first
underscore), contradicting the claim that such stems are rejected with a
malformed-filename error. -/
theorem multi_underscore_stem_accepted :
    (content_file_metadata "2023-01-01_my_post.adoc" "blog").isOk = true ∧
      (content_file_metadata "2023-01-01_my_post.adoc" "blog").map (fun u => u.name) =
        .ok "my_post" := by
  exact ⟨by rfl, by rfl⟩

/-- Claim C4 (amended): a file name with an extractable stem and extension
whose stem contains *no* underscore is rejected with the malformed-filename
error; a stem containing one or more underscores is accepted by splitting
at the first underscore, the remaining underscores staying in the name
(exercised on `2023-01-01_my_post.adoc`, parsed with name `my_post`). -/
theorem zero_underscore_stem_rejected :
    (∀ (p root f : String) (stem ext : List Char),
      fileName p = some f → stemExt f.data = (stem, some ext) →
      ('_' : Char) ∉ stem →
      content_file_metadata p root = .error (.malformedFilename ⟨stem⟩)) ∧
      (content_file_metadata "2023-01-01_my_post.adoc" "blog").map (fun u => u.name) =
        .ok "my_post" := by
  constructor
  · intro p root f stem ext hf hse hmem
    simp only [content_file_metadata, hf, hse, splitFirst_eq_none hmem]
  · rfl

/-- Witness for the amended C4 at `nounderscore.adoc`. -/
theorem zero_underscore_stem_rejected_app :
    content_file_metadata "nounderscore.adoc" "blog" =
      .error (.malformedFilename "nounderscore") :=
  zero_underscore_stem_rejected.1 "nounderscore.adoc" "blog" "nounderscore.adoc"
    "nounderscore".data "adoc".data (by rfl) (by rfl) (by decide)

/-- Claim C5 counterexample: constructing a file name from the extension
`b.c` (which contains a dot) does not round-trip — the parser recovers
name `a.b` and extension `c` instead of name `a` and extension `b.c`. -/
theorem parser_roundtrip_fails_on_dotted_ext :
    (content_file_metadata (dateString ⟨2023, 1, 1⟩ ++ "_" ++ "a" ++ "." ++ "b.c") "blog").map
        (fun u => (u.date, u.name, u.file_ext)) ≠
      .ok (⟨2023, 1, 1⟩, "a", "b.c") := by
  decide

/-- Claim C5 (amended): for every valid date `d`, name `n` and extension
`e`, where `n` and `e` contain no path separator (so the constructed
string is a single file name) and `e` contains no dot, parsing the
constructed file name `<d as YYYY-MM-DD>_<n>.<e>` recovers exactly the
date `d`, the name `n` and the extension `e`. -/
theorem parser_roundtrip_on_construction :
    ∀ (d : Date) (n e root : String),
      d.Valid → ('.' : Char) ∉ e.data → ('/' : Char) ∉ e.data → ('/' : Char) ∉ n.data →
      (content_file_metadata (dateString d ++ "_" ++ n ++ "." ++ e) root).map
          (fun u => (u.date, u.name, u.file_ext)) = .ok (d, n, e) := by
  intro d n e root hv hdot hse hsn
  have hvv := hv
  obtain ⟨hm1, hm2, hd1, hd2, hy⟩ := hvv
  have hpdata : (dateString d ++ "_" ++ n ++ "." ++ e).data =
      (dateString d).data ++ '_' :: (n.data ++ '.' :: e.data) := by
    simp
  have hddig : (Nat.digitChar (d.year / 1000)).isDigit = true :=
    isDigit_digitChar (by omega)
  have hshape : (dateString d ++ "_" ++ n ++ "." ++ e).data =
      Nat.digitChar (d.year / 1000) ::
        ([Nat.digitChar (d.year / 100 % 10), Nat.digitChar (d.year / 10 % 10),
          Nat.digitChar (d.year % 10)] ++ '-' ::
            (pad2Chars d.month ++ '-' :: pad2Chars d.day) ++
          '_' :: (n.data ++ '.' :: e.data)) := by
    rw [hpdata, dateString_data]
    simp [pad4Chars]
  have hslash : ('/' : Char) ∉ (dateString d ++ "_" ++ n ++ "." ++ e).data := by
    rw [hpdata]
    intro hmem
    simp only [List.mem_append, List.mem_cons] at hmem
    rcases hmem with hds | hu | hn | hp | he2
    · exact not_mem_dateString (by rfl) (by decide) hv hds
    · exact absurd hu (by decide)
    · exact hsn hn
    · exact absurd hp (by decide)
    · exact hse he2
  have hne1 : (dateString d ++ "_" ++ n ++ "." ++ e).data ≠ [] := by
    rw [hshape]; intro hfalse; cases hfalse
  have hne2 : (dateString d ++ "_" ++ n ++ "." ++ e).data ≠ ['.'] := by
    rw [hshape]
    intro hfalse
    have hhead : Nat.digitChar (d.year / 1000) = '.' := (List.cons.inj hfalse).1
    rw [hhead] at hddig
    cases hddig
  have hne3 : (dateString d ++ "_" ++ n ++ "." ++ e).data ≠ ['.', '.'] := by
    rw [hshape]
    intro hfalse
    have hhead : Nat.digitChar (d.year / 1000) = '.' := (List.cons.inj hfalse).1
    rw [hhead] at hddig
    cases hddig
  have hfn : fileName (dateString d ++ "_" ++ n ++ "." ++ e) =
      some (dateString d ++ "_" ++ n ++ "." ++ e) :=
    fileName_of_no_slash hslash hne1 hne2 hne3
  have hstem : stemExt (dateString d ++ "_" ++ n ++ "." ++ e).data =
      ((dateString d).data ++ '_' :: n.data, some e.data) := by
    rw [hpdata]
    have hassoc : (dateString d).data ++ '_' :: (n.data ++ '.' :: e.data) =
        ((dateString d).data ++ '_' :: n.data) ++ '.' :: e.data := by
      simp
    rw [hassoc]
    exact stemExt_append hdot (by
      intro hfalse
      have := congrArg List.length hfalse
      simp at this)
  have hsplit : splitFirst '_' ((dateString d).data ++ '_' :: n.data) =
      some ((dateString d).data, n.data) :=
    splitFirst_append (not_mem_dateString (by rfl) (by decide) hv)
  have hparse : parse_ymd (dateString d).data = some d := parse_ymd_dateString hv
  simp only [content_file_metadata, hfn, hstem, hsplit, hparse, Except.map]

/-! ## Chronological indexer lemmas -/

theorem insertYear_year_key (u : ContentMetaUnit) :
    ∀ (m : List (Nat × List ContentMetaUnit)),
      (∀ y us, (y, us) ∈ m → ∀ w ∈ us, yearCE w.date = y) →
      ∀ y us, (y, us) ∈ insertYear u m → ∀ w ∈ us, yearCE w.date = y := by
  intro m
  induction m with
  | nil =>
    intro _ y us hmem w hw
    simp only [insertYear, List.mem_cons, List.not_mem_nil, or_false,
      Prod.mk.injEq] at hmem
    obtain ⟨hy, hus⟩ := hmem
    subst hy
    subst hus
    simp only [List.mem_cons, List.not_mem_nil, or_false] at hw
    subst hw
    rfl
  | cons p rest ih =>
    obtain ⟨y0, us0⟩ := p
    intro hm y us hmem w hw
    have hm0 : ∀ w2 ∈ us0, yearCE w2.date = y0 :=
      hm y0 us0 (List.mem_cons_self _ _)
    have hmr : ∀ y2 us2, (y2, us2) ∈ rest → ∀ w2 ∈ us2, yearCE w2.date = y2 :=
      fun y2 us2 h2 => hm y2 us2 (List.mem_cons_of_mem _ h2)
    unfold insertYear at hmem
    by_cases h1 : yearCE u.date = y0
    · rw [if_pos h1] at hmem
      rcases List.mem_cons.mp hmem with heq | hrest
      · rw [Prod.mk.injEq] at heq
        obtain ⟨hy, hus⟩ := heq
        subst hy
        subst hus
        rcases List.mem_append.mp hw with hin | hone
        · exact hm0 w hin
        · simp only [List.mem_cons, List.not_mem_nil, or_false] at hone
          subst hone
          exact h1
      · exact hmr y us hrest w hw
    · rw [if_neg h1] at hmem
      by_cases h2 : yearCE u.date < y0
      · rw [if_pos h2] at hmem
        rcases List.mem_cons.mp hmem with heq | hrest
        · rw [Prod.mk.injEq] at heq
          obtain ⟨hy, hus⟩ := heq
          subst hy
          subst hus
          simp only [List.mem_cons, List.not_mem_nil, or_false] at hw
          subst hw
          rfl
        · exact hm y us hrest w hw
      · rw [if_neg h2] at hmem
        rcases List.mem_cons.mp hmem with heq | hrest
        · rw [Prod.mk.injEq] at heq
          obtain ⟨hy, hus⟩ := heq
          subst hy
          subst hus
          exact hm0 w hw
        · exact ih hmr y us hrest w hw

theorem foldl_insertYear_year_key :
    ∀ (l : List ContentMetaUnit) (acc : List (Nat × List ContentMetaUnit)),
      (∀ y us, (y, us) ∈ acc → ∀ w ∈ us, yearCE w.date = y) →
      ∀ y us, (y, us) ∈ l.foldl (fun m u => insertYear u m) acc →
        ∀ w ∈ us, yearCE w.date = y := by
  intro l
  induction l with
  | nil => intro acc hacc; simpa using hacc
  | cons u l2 ih =>
    intro acc hacc
    exact ih (insertYear u acc) (insertYear_year_key u acc hacc)

theorem mem_insertYear_self (u : ContentMetaUnit) :
    ∀ (m : List (Nat × List ContentMetaUnit)),
      ∃ us, (yearCE u.date, us) ∈ insertYear u m ∧ u ∈ us := by
  intro m
  induction m with
  | nil => exact ⟨[u], by simp [insertYear], by simp⟩
  | cons p rest ih =>
    obtain ⟨y0, us0⟩ := p
    unfold insertYear
    by_cases h1 : yearCE u.date = y0
    · rw [if_pos h1]
      refine ⟨us0 ++ [u], ?_, by simp⟩
      rw [h1]
      exact List.mem_cons_self _ _
    · rw [if_neg h1]
      by_cases h2 : yearCE u.date < y0
      · rw [if_pos h2]
        exact ⟨[u], List.mem_cons_self _ _, by simp⟩
      · rw [if_neg h2]
        obtain ⟨us, hmem, hu⟩ := ih
        exact ⟨us, List.mem_cons_of_mem _ hmem, hu⟩

theorem mem_insertYear_mono (u w : ContentMetaUnit) {y : Nat} :
    ∀ (m : List (Nat × List ContentMetaUnit)) (us : List ContentMetaUnit),
      (y, us) ∈ m → w ∈ us →
      ∃ us2, (y, us2) ∈ insertYear u m ∧ w ∈ us2 := by
  intro m
  induction m with
  | nil =>
    intro us h
    exact absurd h (List.not_mem_nil _)
  | cons p rest ih =>
    obtain ⟨y0, us0⟩ := p
    intro us hmem hw
    unfold insertYear
    by_cases h1 : yearCE u.date = y0
    · rw [if_pos h1]
      rcases List.mem_cons.mp hmem with heq | hrest
      · rw [Prod.mk.injEq] at heq
        obtain ⟨hy, hus⟩ := heq
        subst hy
        subst hus
        exact ⟨us ++ [u], List.mem_cons_self _ _, List.mem_append_left _ hw⟩
      · exact ⟨us, List.mem_cons_of_mem _ hrest, hw⟩
    · rw [if_neg h1]
      by_cases h2 : yearCE u.date < y0
      · rw [if_pos h2]
        exact ⟨us, List.mem_cons_of_mem _ hmem, hw⟩
      · rw [if_neg h2]
        rcases List.mem_cons.mp hmem with heq | hrest
        · rw [Prod.mk.injEq] at heq
          obtain ⟨hy, hus⟩ := heq
          subst hy
          subst hus
          exact ⟨us, List.mem_cons_self _ _, hw⟩
        · obtain ⟨us2, hmem2, hw2⟩ := ih us hrest hw
          exact ⟨us2, List.mem_cons_of_mem _ hmem2, hw2⟩

theorem mem_foldl_insertYear_mono (w : ContentMetaUnit) {y : Nat} :
    ∀ (l : List ContentMetaUnit) (acc : List (Nat × List ContentMetaUnit))
      (us : List ContentMetaUnit), (y, us) ∈ acc → w ∈ us →
      ∃ us2, (y, us2) ∈ l.foldl (fun m u => insertYear u m) acc ∧ w ∈ us2 := by
  intro l
  induction l with
  | nil => intro acc us h hw; exact ⟨us, h, hw⟩
  | cons u l2 ih =>
    intro acc us h hw
    obtain ⟨us2, h2, hw2⟩ := mem_insertYear_mono u w acc us h hw
    exact ih (insertYear u acc) us2 h2 hw2

theorem mem_foldl_insertYear_self :
    ∀ (l : List ContentMetaUnit) (u : ContentMetaUnit), u ∈ l →
      ∀ acc, ∃ us, (yearCE u.date, us) ∈ l.foldl (fun m u => insertYear u m) acc ∧
        u ∈ us := by
  intro l
  induction l with
  | nil => intro u h; exact absurd h (List.not_mem_nil _)
  | cons x l2 ih =>
    intro u hu acc
    rcases List.mem_cons.mp hu with heq | h2
    · subst heq
      obtain ⟨us, hmem, hw⟩ := mem_insertYear_self u acc
      exact mem_foldl_insertYear_mono u l2 (insertYear u acc) us hmem hw
    · exact ih u h2 (insertYear x acc)

theorem mem_insertDesc {u a : ContentMetaUnit} :
    ∀ {l : List ContentMetaUnit}, a ∈ insertDesc u l ↔ a = u ∨ a ∈ l := by
  intro l
  induction l with
  | nil => simp [insertDesc]
  | cons v vs ih =>
    unfold insertDesc
    by_cases h : v.date.key ≤ u.date.key
    · rw [if_pos h]
      simp [List.mem_cons]
    · rw [if_neg h]
      simp only [List.mem_cons, ih]
      tauto

theorem mem_sortDesc {a : ContentMetaUnit} :
    ∀ {l : List ContentMetaUnit}, a ∈ sortDesc l ↔ a ∈ l := by
  intro l
  induction l with
  | nil => simp [sortDesc]
  | cons u us ih =>
    show a ∈ insertDesc u (sortDesc us) ↔ _
    rw [mem_insertDesc]
    simp [ih, List.mem_cons]

theorem pairwise_insertDesc (u : ContentMetaUnit) :
    ∀ {l : List ContentMetaUnit},
      l.Pairwise (fun a b => b.date.key ≤ a.date.key) →
      (insertDesc u l).Pairwise (fun a b => b.date.key ≤ a.date.key) := by
  intro l
  induction l with
  | nil => intro _; simp [insertDesc]
  | cons v vs ih =>
    intro hp
    obtain ⟨hv, hvs⟩ := List.pairwise_cons.mp hp
    unfold insertDesc
    by_cases h : v.date.key ≤ u.date.key
    · rw [if_pos h]
      refine List.pairwise_cons.mpr ⟨?_, hp⟩
      intro w hw
      rcases List.mem_cons.mp hw with heq | hw2
      · subst heq; exact h
      · exact Nat.le_trans (hv w hw2) h
    · rw [if_neg h]
      refine List.pairwise_cons.mpr ⟨?_, ih hvs⟩
      intro w hw
      rcases mem_insertDesc.mp hw with heq | hw2
      · subst heq; omega
      · exact hv w hw2

theorem pairwise_sortDesc :
    ∀ (l : List ContentMetaUnit),
      (sortDesc l).Pairwise (fun a b => b.date.key ≤ a.date.key) := by
  intro l
  induction l with
  | nil => simp [sortDesc]
  | cons u us ih => exact pairwise_insertDesc u ih

theorem mem_entries_map {l : List ContentMetaUnit} {y : Nat}
    {us : List ContentMetaUnit} :
    (y, us) ∈ entries_map l ↔
      ∃ vs, (y, vs) ∈ l.foldl (fun m u => insertYear u m) [] ∧ us = sortDesc vs := by
  unfold entries_map
  constructor
  · intro h
    obtain ⟨p, hp, hfp⟩ := List.mem_map.mp h
    obtain ⟨py, pus⟩ := p
    rw [Prod.mk.injEq] at hfp
    obtain ⟨h1, h2⟩ := hfp
    subst h1
    exact ⟨pus, hp, h2.symm⟩
  · intro h
    obtain ⟨vs, hvs, heq⟩ := h
    exact List.mem_map.mpr ⟨(y, vs), hvs, by rw [heq]⟩

/-- Claim C7: the Chronological Indexer groups entries by calendar year
(the `year_ce` key equals the calendar year for every CE date) and sorts
the entries within each year by date descending; on content dated
2023-05-01, 2023-01-10 and 2022-12-31 it produces exactly the groups
2022 ↦ [2022-12-31] and 2023 ↦ [2023-05-01, 2023-01-10], in that
ascending-key map order with the 2023 entries in exactly that order. -/
theorem entries_map_groups_and_sorts :
    (∀ (l : List ContentMetaUnit) (y : Nat) (us : List ContentMetaUnit),
      (y, us) ∈ entries_map l →
        (∀ u ∈ us, yearCE u.date = y) ∧
          us.Pairwise (fun a b => b.date.key ≤ a.date.key)) ∧
    (∀ (l : List ContentMetaUnit) (u : ContentMetaUnit), u ∈ l →
      ∃ us, (yearCE u.date, us) ∈ entries_map l ∧ u ∈ us) ∧
    (∀ d : Date, 1 ≤ d.year → yearCE d = d.year) ∧
    entries_map [sampleUnit ⟨2023, 5, 1⟩ "a", sampleUnit ⟨2023, 1, 10⟩ "b",
        sampleUnit ⟨2022, 12, 31⟩ "c"] =
      [(2022, [sampleUnit ⟨2022, 12, 31⟩ "c"]),
       (2023, [sampleUnit ⟨2023, 5, 1⟩ "a", sampleUnit ⟨2023, 1, 10⟩ "b"])] := by
  refine ⟨?_, ?_, ?_, by decide⟩
  · intro l y us hmem
    obtain ⟨vs, hvs, rfl⟩ := mem_entries_map.mp hmem
    constructor
    · intro u hu
      have hu2 : u ∈ vs := mem_sortDesc.mp hu
      exact foldl_insertYear_year_key l []
        (fun y2 us2 h => absurd h (List.not_mem_nil _)) y vs hvs u hu2
    · exact pairwise_sortDesc vs
  · intro l u hu
    obtain ⟨vs, hvs, hw⟩ := mem_foldl_insertYear_self l u hu []
    exact ⟨sortDesc vs, mem_entries_map.mpr ⟨vs, hvs, rfl⟩, mem_sortDesc.mpr hw⟩
  · intro d hd
    unfold yearCE
    rw [if_neg (by omega)]

/-- Witness for C7: the 2022-12-31 unit is grouped under its calendar
year in a singleton run. -/
theorem entries_map_groups_and_sorts_app :
    ∃ us, (yearCE (sampleUnit ⟨2022, 12, 31⟩ "c").date, us) ∈
        entries_map [sampleUnit ⟨2022, 12, 31⟩ "c"] ∧
      sampleUnit ⟨2022, 12, 31⟩ "c" ∈ us :=
  entries_map_groups_and_sorts.2.1 [sampleUnit ⟨2022, 12, 31⟩ "c"]
    (sampleUnit ⟨2022, 12, 31⟩ "c") (List.mem_cons_self _ _)

/-! ## Materializer lemmas -/

theorem splitAllAux_shape (sep : Char) :
    ∀ (l cur : List Char), ∃ a as, splitAllAux sep l cur = a :: as := by
  intro l
  induction l with
  | nil => intro cur; exact ⟨cur.reverse, [], rfl⟩
  | cons c rest ih =>
    intro cur
    unfold splitAllAux
    by_cases h : c = sep
    · rw [if_pos h]
      exact ⟨cur.reverse, splitAllAux sep rest [], rfl⟩
    · rw [if_neg h]
      exact ih (c :: cur)

theorem joinSep_splitAllAux (sep : Char) :
    ∀ (l cur : List Char), joinSep sep (splitAllAux sep l cur) = cur.reverse ++ l := by
  intro l
  induction l with
  | nil => intro cur; simp [splitAllAux, joinSep]
  | cons c rest ih =>
    intro cur
    unfold splitAllAux
    by_cases h : c = sep
    · rw [if_pos h]
      obtain ⟨a, as, hshape⟩ := splitAllAux_shape sep rest []
      rw [hshape]
      show joinSep sep (cur.reverse :: a :: as) = _
      unfold joinSep
      rw [← hshape, ih []]
      simp [h]
    · rw [if_neg h, ih (c :: cur)]
      simp

theorem joinSep_splitAll (sep : Char) (l : List Char) :
    joinSep sep (splitAll sep l) = l := by
  unfold splitAll
  rw [joinSep_splitAllAux]
  rfl

theorem joinSlash_split_root (root : String) :
    joinSlash ((splitAll '/' root.data).map (fun c => (⟨c⟩ : String))) = root := by
  unfold joinSlash
  rw [List.map_map]
  have hmap : (String.data ∘ fun c => (⟨c⟩ : String)) = id := rfl
  rw [hmap, List.map_id, joinSep_splitAll]

theorem content_file_metadata_ok_shape {p root : String} {u : ContentMetaUnit}
    (h : content_file_metadata p root = .ok u) :
    u.categories = (splitAll '/' root.data).map (fun c => (⟨c⟩ : String)) ∧
      u.path = root ++ "/" ++ natStr (yearCE u.date) ++ "/"
        ++ (⟨pad2Chars u.date.month⟩ : String) ++ "/"
        ++ (⟨pad2Chars u.date.day⟩ : String) := by
  unfold content_file_metadata at h
  split at h
  · cases h
  · split at h
    · cases h
    · split at h
      · cases h
      · split at h
        · cases h
        · have hu := Except.ok.inj h
          subst hu
          refine ⟨rfl, ?_⟩
          apply string_data_ext
          simp

/-- Claim C9: the materializer's side effects are, for every map entry in
order, creating `<output_root>/<path>` and then writing the transformed
body to `<output_root>/<path>/<filesystem_friendly_name>.<file_ext>`
(with `output_root` the fixed `content` directory), and the `path` of
every parsed unit is `<joined categories>/<year>/<month:02>/<day:02>`. -/
theorem construct_content_filesystem_destinations :
    (∀ (readFile : String → String) (m : List (String × ContentMetaUnit)),
      (construct_content_filesystem readFile m).1 = m.flatMap (unitOps readFile)) ∧
    (∀ (p root : String) (u : ContentMetaUnit),
      content_file_metadata p root = .ok u →
        u.path = joinSlash u.categories ++ "/" ++ natStr (yearCE u.date) ++ "/"
          ++ (⟨pad2Chars u.date.month⟩ : String) ++ "/"
          ++ (⟨pad2Chars u.date.day⟩ : String)) := by
  constructor
  · intro readFile m
    induction m with
    | nil => rfl
    | cons pm rest ih =>
      obtain ⟨p, meta⟩ := pm
      have hstep : construct_content_filesystem readFile ((p, meta) :: rest) =
          (FsOp.createDirAll ("content/" ++ meta.path) ::
            FsOp.write
              ("content/" ++ (meta.path ++ "/" ++ meta.filesystem_friendly_name
                ++ "." ++ meta.file_ext))
              (content_unit_contents meta.name (readFile p)) ::
              (construct_content_filesystem readFile rest).1,
            { meta := meta, contents := content_unit_contents meta.name (readFile p) } ::
              (construct_content_filesystem readFile rest).2) := rfl
      rw [hstep, List.flatMap_cons, ← ih]
      have hcontent : ("content/" : String) = output_root ++ "/" := by decide
      have hdir : ("content/" : String) ++ meta.path = output_root ++ "/" ++ meta.path := by
        rw [hcontent]
      have hfile : ("content/" : String) ++ (meta.path ++ "/"
            ++ meta.filesystem_friendly_name ++ "." ++ meta.file_ext) =
          output_root ++ "/" ++ meta.path ++ "/" ++ meta.filesystem_friendly_name
            ++ "." ++ meta.file_ext := by
        rw [hcontent]
        simp only [String.append_assoc]
      rw [hdir, hfile]
      rfl
  · intro p root u h
    obtain ⟨hcat, hpath⟩ := content_file_metadata_ok_shape h
    rw [hpath, hcat, joinSlash_split_root]

/-- Witness for C9: the destination operations and path shape at the unit
parsed from `2023-07-04_Hello World.adoc` with root `blog`. -/
theorem construct_content_filesystem_destinations_app :
    helloUnit.path = joinSlash helloUnit.categories ++ "/"
        ++ natStr (yearCE helloUnit.date) ++ "/"
        ++ (⟨pad2Chars helloUnit.date.month⟩ : String) ++ "/"
        ++ (⟨pad2Chars helloUnit.date.day⟩ : String) :=
  construct_content_filesystem_destinations.2 "2023-07-04_Hello World.adoc" "blog"
    helloUnit (by rfl)

/-! ## Claim theorems about configuration derivation -/

theorem findIdx?_anchor (post : List String) :
    ∀ (pre : List String) (i : Nat), (∀ x ∈ pre, x ≠ ".content") →
      List.findIdx? (fun x => x = ".content") (pre ++ ".content" :: post) i =
        some (pre.length + i) := by
  intro pre
  induction pre with
  | nil =>
    intro i h
    show List.findIdx? _ (".content" :: post) i = some (0 + i)
    rw [List.findIdx?_cons]
    simp
  | cons x xs ih =>
    intro i h
    have hx : x ≠ ".content" := h x (List.mem_cons_self x xs)
    have hxs : ∀ y ∈ xs, y ≠ ".content" := fun y hy => h y (List.mem_cons_of_mem x hy)
    show List.findIdx? _ (x :: (xs ++ ".content" :: post)) i = some ((x :: xs).length + i)
    rw [List.findIdx?_cons, if_neg (by simpa using hx), ih (i + 1) hxs]
    simp only [List.length_cons]
    congr 1
    omega

/-- Claim C6 counterexample: for the input component list
`[.content, .alice, blog]` the derived categories are `[.alice, blog]` —
the leading dot-prefixed author component is *kept* in the lineage — while
the claim (see `spec_lineage`) expects `[blog]`. -/
theorem cfg_lineage_keeps_author_component :
    (cfg_derive [".content", ".alice", "blog"]).map CfgDerived.categories =
        some [".alice", "blog"] ∧
      spec_lineage [".alice", "blog"] = ["blog"] ∧
      ([".alice", "blog"] : List String) ≠ ["blog"] := by
  refine ⟨by rfl, by rfl, by decide⟩

/-- Claim C6 (amended): the derived category lineage consists of *all*
path components following the first `.content` anchor component, including
a leading dot-prefixed component when one is present (that component is
additionally recorded, with its leading dots trimmed, as the author
marker). -/
theorem cfg_lineage_all_components_after_anchor :
    ∀ (pre post : List String), (∀ x ∈ pre, x ≠ ".content") →
      (cfg_derive (pre ++ ".content" :: post)).map CfgDerived.categories = some post := by
  intro pre post hpre
  have hidx := findIdx?_anchor post pre 0 hpre
  have hdrop : (pre ++ ".content" :: post).drop (pre.length + 1) = post := by
    have hsplitL : pre ++ ".content" :: post = (pre ++ [".content"]) ++ post := by simp
    rw [hsplitL]
    exact List.drop_left' (by simp)
  simp only [cfg_derive, hidx, hdrop, Option.map]

/-- Witness for the amended C6 at `["home"] ++ [".content"] ++ ["blog", "tech"]`. -/
theorem cfg_lineage_all_components_after_anchor_app :
    (cfg_derive (["home"] ++ ".content" :: ["blog", "tech"])).map CfgDerived.categories =
      some ["blog", "tech"] :=
  cfg_lineage_all_components_after_anchor ["home"] ["blog", "tech"] (by decide)

/-- Witness for the amended C5 at `2023-07-04`, name `Hello World`,
extension `adoc`. -/
theorem parser_roundtrip_on_construction_app :
    (content_file_metadata (dateString ⟨2023, 7, 4⟩ ++ "_" ++ "Hello World" ++ "." ++ "adoc")
          "blog").map (fun u => (u.date, u.name, u.file_ext)) =
      .ok (⟨2023, 7, 4⟩, "Hello World", "adoc") :=
  parser_roundtrip_on_construction ⟨2023, 7, 4⟩ "Hello World" "adoc" "blog"
    (by decide) (by decide) (by decide) (by decide)

end WebWeaver
